import Mathlib

/-!
Shallow embedding of the unistore storage engine core (engine/engine.go,
config, memtable and mock-region-manager sources) together with proofs
about its snapshot read path, write batches, flush triggering, id
allocation and duration parsing.

Conventions of the embedding:
  * byte strings (keys, values, user-meta) are `List Nat`;
  * Go machine integers are `Nat` with an explicit `% 2 ^ 64` wherever
    uint64 overflow is observable;
  * the external memtable / L0-table / SSTable lookup routines are not part
    of the translated sources, so a table is a record carrying its lookup
    as a black-box function; the engine code treats these lookups opaquely;
  * Go methods that mutate their receiver are state-passing functions.
-/

set_option autoImplicit false

namespace Unistore

/-- A badger `y.ValueStruct`: meta byte, user-meta bytes, version, value
bytes.  The zero struct is the "not found" result; `Valid` recognises it
(external `y` package: a struct is valid when it has a meta byte or a
non-empty value). -/
structure ValueStruct where
  meta : Nat
  userMeta : List Nat
  version : Nat
  value : List Nat
deriving DecidableEq, Repr

/-- The zero `y.ValueStruct{}` returned when a lookup finds nothing. -/
def ValueStruct.zero : ValueStruct := ⟨0, [], 0, []⟩

/-- External `y.ValueStruct.Valid`: the struct is a real record (not the
zero struct). -/
def ValueStruct.Valid (v : ValueStruct) : Bool :=
  v.meta != 0 || !v.value.isEmpty

/-- Stand-in for the external `y.ValueStruct.EncodedSize`; only used as an
additive size contribution, the exact value is irrelevant to the claims. -/
def ValueStruct.EncodedSize (v : ValueStruct) : Nat :=
  v.value.length + v.userMeta.length + 10

/-- The delete bit of the meta byte (engine/table `BitDelete`). -/
def BitDelete : Nat := 1

/-- `table.IsDeleted`: the meta byte has the delete bit set, marking a
tombstone. -/
def IsDeleted (meta : Nat) : Bool := meta % 2 == 1

/-- `math.MaxUint64`. -/
def maxUint64 : Nat := 2 ^ 64 - 1

/-- Stand-in for the external `memtable.EstimateNodeSize` constant. -/
def EstimateNodeSize : Nat := 88

/-! ## Write batches (engine.go lines 514-608) -/

/-- A column-family configuration; only the managed flag matters to the
write-batch admission rules. -/
structure CFConfig where
  managed : Bool
deriving DecidableEq, Repr

/-- A `memtable.Entry`: key plus value record. -/
structure Entry where
  key : List Nat
  value : ValueStruct
deriving DecidableEq, Repr

/-- `engine.WriteBatch`: per-CF entry lists, accumulated size estimate,
properties map (modelled as an association list) and the bump-allocated
entry pool (`entryArena`, `entryArenaIdx`). -/
structure WriteBatch where
  cfConfs : List CFConfig
  entries : List (List Entry)
  estimatedSize : Nat
  properties : List (String × List Nat)
  entryArena : List Entry
  entryArenaIdx : Nat
deriving DecidableEq, Repr

/-- `Engine.NewWriteBatch`: fresh batch with one empty entry list per CF. -/
def Engine.NewWriteBatch (cfConfs : List CFConfig) : WriteBatch :=
  ⟨cfConfs, List.replicate cfConfs.length [], 0, [], [], 0⟩

/-- `WriteBatch.allocEntry`: bump-allocate an entry slot (growing the arena
when exhausted; Go grows to the slice capacity, modelled as growing by
one), store the key/value there and advance the index. -/
def WriteBatch.allocEntry (wb : WriteBatch) (key : List Nat) (val : ValueStruct) :
    Entry × WriteBatch :=
  let arena :=
    if wb.entryArena.length ≤ wb.entryArenaIdx then
      wb.entryArena ++ [⟨[], ValueStruct.zero⟩]
    else wb.entryArena
  let e : Entry := ⟨key, val⟩
  (e, { wb with entryArena := arena.set wb.entryArenaIdx e,
                entryArenaIdx := wb.entryArenaIdx + 1 })

/-- `WriteBatch.Put` (engine.go:545).  Returns the Go error (`some` message)
together with the post-call batch state; the reject paths return before any
field of the receiver is touched. -/
def WriteBatch.Put (wb : WriteBatch) (cf : Nat) (key : List Nat) (val : ValueStruct) :
    Option String × WriteBatch :=
  if (wb.cfConfs.getD cf ⟨false⟩).managed then
    if val.version = 0 then (some "version is zero for managed CF", wb)
    else
      let (e, wb1) := wb.allocEntry key val
      (none, { wb1 with
                entries := wb1.entries.set cf ((wb1.entries.getD cf []).concat e),
                estimatedSize :=
                  wb1.estimatedSize + (key.length + val.EncodedSize + EstimateNodeSize) })
  else
    if val.version ≠ 0 then (some "version is not zero for non-managed CF", wb)
    else
      let (e, wb1) := wb.allocEntry key val
      (none, { wb1 with
                entries := wb1.entries.set cf ((wb1.entries.getD cf []).concat e),
                estimatedSize :=
                  wb1.estimatedSize + (key.length + val.EncodedSize + EstimateNodeSize) })

/-- `WriteBatch.Delete` (engine.go:560): records a tombstone entry under
the same managed-version admission rule. -/
def WriteBatch.Delete (wb : WriteBatch) (cf : Nat) (key : List Nat) (version : Nat) :
    Option String × WriteBatch :=
  if (wb.cfConfs.getD cf ⟨false⟩).managed then
    if version = 0 then (some "version is zero for managed CF", wb)
    else
      let (e, wb1) := wb.allocEntry key ⟨BitDelete, [], version, []⟩
      (none, { wb1 with
                entries := wb1.entries.set cf ((wb1.entries.getD cf []).concat e),
                estimatedSize := wb1.estimatedSize + (key.length + EstimateNodeSize) })
  else
    if version ≠ 0 then (some "version is not zero for non-managed CF", wb)
    else
      let (e, wb1) := wb.allocEntry key ⟨BitDelete, [], version, []⟩
      (none, { wb1 with
                entries := wb1.entries.set cf ((wb1.entries.getD cf []).concat e),
                estimatedSize := wb1.estimatedSize + (key.length + EstimateNodeSize) })

/-- `WriteBatch.SetProperty`. -/
def WriteBatch.SetProperty (wb : WriteBatch) (key : String) (val : List Nat) : WriteBatch :=
  { wb with properties := (key, val) :: wb.properties.filter (·.1 ≠ key) }

/-- `WriteBatch.EstimatedSize`. -/
def WriteBatch.EstimatedSize (wb : WriteBatch) : Nat := wb.estimatedSize

/-- `WriteBatch.NumEntries`: total number of entries over all CFs. -/
def WriteBatch.NumEntries (wb : WriteBatch) : Nat :=
  wb.entries.foldl (fun n es => n + es.length) 0

/-- `WriteBatch.Reset` (engine.go:591): truncate each CF's entry list,
zero the size, clear the properties, rewind the arena index (the arena
backing store itself is kept for reuse). -/
def WriteBatch.Reset (wb : WriteBatch) : WriteBatch :=
  { wb with entries := wb.entries.map (fun _ => []),
            estimatedSize := 0,
            properties := [],
            entryArenaIdx := 0 }

/-- Entries visited by `WriteBatch.Iterate`'s loop: every entry up to and
including the first one on which the visitor returns false. -/
def visitList (fn : Entry → Bool) : List Entry → List Entry
  | [] => []
  | e :: rest => if fn e then e :: visitList fn rest else [e]

/-- `WriteBatch.Iterate` (engine.go:602), reified as the list of entries
the visitor is applied to. -/
def WriteBatch.Iterate (wb : WriteBatch) (cf : Nat) (fn : Entry → Bool) : List Entry :=
  visitList fn (wb.entries.getD cf [])

/-! ## Tables and shards

The memtable skiplist, L0 file and SSTable lookup code is external to the
translated sources; each table is a record carrying its lookup as a
black-box function of (cf,) key, version (and filter hash), plus the
attributes the engine reads. -/

/-- A multi-CF memtable (`memtable.Table`): a black-box per-CF lookup, a
hint-advancing function (the hint is an off-engine skiplist search cursor,
modelled as a `Nat`), emptiness and the sealed commit version. -/
structure MemTable where
  getv : Nat → List Nat → Nat → ValueStruct
  hintUpd : Nat → List Nat → Nat → Nat → Nat
  isEmpty : Bool
  version : Nat

/-- `memtable.Table.Get`. -/
def MemTable.Get (m : MemTable) (cf : Nat) (key : List Nat) (version : Nat) : ValueStruct :=
  m.getv cf key version

/-- `memtable.Table.GetWithHint`: same value as `Get` (the hint only
amortises skiplist seeks), and the hint passed by reference is advanced. -/
def MemTable.GetWithHint (m : MemTable) (cf : Nat) (key : List Nat) (version : Nat)
    (hint : Nat) : ValueStruct × Nat :=
  (m.Get cf key version, m.hintUpd cf key version hint)

/-- `memtable.Table.Empty`. -/
def MemTable.Empty (m : MemTable) : Bool := m.isEmpty

/-- `memtable.Table.GetVersion`. -/
def MemTable.GetVersion (m : MemTable) : Nat := m.version

/-- `memtable.Table.SetVersion`. -/
def MemTable.SetVersion (m : MemTable) (v : Nat) : MemTable := { m with version := v }

/-- `memtable.NewCFTable`: a fresh empty memtable (all lookups find
nothing). -/
def NewCFTable (numCFs : Nat) : MemTable :=
  { getv := fun _ _ _ => ValueStruct.zero
    hintUpd := fun _ _ _ h => h
    isEmpty := true
    version := numCFs - numCFs }

/-- An L0 table: black-box lookup taking (cf, key, version, filter hash). -/
structure L0Table where
  getv : Nat → List Nat → Nat → Nat → ValueStruct

/-- `sstable.L0Table.Get`. -/
def L0Table.Get (t : L0Table) (cf : Nat) (key : List Nat) (version keyHash : Nat) :
    ValueStruct :=
  t.getv cf key version keyHash

/-- An SSTable of a level ≥ 1: its biggest user key and a black-box lookup
taking (key, version, filter hash). -/
structure SSTable where
  biggestKey : List Nat
  getv : List Nat → Nat → Nat → ValueStruct

/-- `sstable.Table.Get`. -/
def SSTable.Get (t : SSTable) (key : List Nat) (version keyHash : Nat) : ValueStruct :=
  t.getv key version keyHash

/-- Lexicographic byte-string order on user keys (`bytes.Compare ≤ 0`). -/
def keyLE : List Nat → List Nat → Bool
  | [], _ => true
  | _ :: _, [] => false
  | a :: as, b :: bs => if a < b then true else if a = b then keyLE as bs else false

/-- A level handler: the ordered table slice of one level of one CF. -/
structure LevelHandler where
  tables : List SSTable

/-- Modelled from the spec: level-handler lookup for a level ≥ 1
binary-searches the sorted table slice for the first table whose
`biggest()` is ≥ internal-key(user_key, MAX) — since versions sort
descending, that internal key is the least one with this user key, so the
test is `user_key ≤ biggest user key` — and that single table is the only
candidate consulted (`levelHandler.get` is not under src/). -/
def LevelHandler.seekCandidate (lv : LevelHandler) (key : List Nat) : Option SSTable :=
  lv.tables.find? (fun t => keyLE key t.biggestKey)

/-- Modelled from the spec: `levelHandler.get` probes the unique candidate
table of the level, if any. -/
def LevelHandler.get (lv : LevelHandler) (key : List Nat) (version keyHash : Nat) :
    ValueStruct :=
  match lv.seekCandidate key with
  | some t => t.Get key version keyHash
  | none => ValueStruct.zero

/-- The per-CF leveled structure (`shardCF`). -/
structure ShardCF where
  levels : List LevelHandler

/-- `shardCF.getLevelHandler i` for `1 ≤ i ≤ len(levels)`. -/
def ShardCF.getLevelHandler (scf : ShardCF) (i : Nat) : LevelHandler :=
  scf.levels.getD (i - 1) ⟨[]⟩

/-- A shard, restricted to the state the claims touch: the memtable slice
(index 0 active, then immutables newest-first), the per-CF levels, the
split fan-out index function, the initial-flush flag and the per-shard
commit-version counter. -/
structure Shard where
  memTbls : List MemTable
  cfs : List ShardCF
  splittingIdx : List Nat → Nat
  initialFlushed : Bool
  commitTS : Nat

/-- `Shard.getSplittingIndex` (split fan-out routing; not under src/, kept
as a black-box function of the key). -/
def Shard.getSplittingIndex (s : Shard) (key : List Nat) : Nat := s.splittingIdx key

/-- `Shard.IsInitialFlushed`. -/
def Shard.IsInitialFlushed (s : Shard) : Bool := s.initialFlushed

/-- Modelled from the spec: `Shard.allocCommitTS` draws from the monotonic
per-shard commit-version allocator (not under src/): it returns a fresh
commit version, strictly greater than any prior one of this shard. -/
def Shard.allocCommitTS (s : Shard) : Nat × Shard :=
  (s.commitTS + 1, { s with commitTS := s.commitTS + 1 })

/-- Stand-in for the external `farm.Fingerprint64`; the engine computes it
once per lookup and passes it to the table filters without inspecting it. -/
def farmFingerprint64 (key : List Nat) : Nat :=
  key.foldl (fun h b => (h * 1099511628211 + b) % 2 ^ 64) 14695981039346656037

/-! ## Snapshot read path (engine.go lines 610-695) -/

/-- `engine.SnapAccess`: the captured memtable slice, splitting memtables
(when the shard was splitting at capture time), L0 slice and per-CF read
hints. -/
structure SnapAccess where
  shard : Shard
  hints : List Nat
  memTables : List MemTable
  splitting : Option (List MemTable)
  l0Tables : List L0Table

/-- The memtable loop of `getValue` from index 1 on: plain `Get`, first
valid record wins. -/
def probeMemRest (cf : Nat) (key : List Nat) (version : Nat) : List MemTable → ValueStruct
  | [] => ValueStruct.zero
  | m :: rest =>
    let v := m.Get cf key version
    if v.Valid then v else probeMemRest cf key version rest

/-- The memtable loop of `getValue`: index 0 goes through `GetWithHint`
(advancing the per-CF hint), all later indices use plain `Get`. -/
def probeMemTbls (cf : Nat) (key : List Nat) (version : Nat) (hint : Nat) :
    List MemTable → ValueStruct × Nat
  | [] => (ValueStruct.zero, hint)
  | m0 :: rest =>
    let (v, hint1) := m0.GetWithHint cf key version hint
    if v.Valid then (v, hint1) else (probeMemRest cf key version rest, hint1)

/-- The L0 loop of `getValue`: newest-first, first valid record wins. -/
def probeL0s (cf : Nat) (key : List Nat) (version keyHash : Nat) : List L0Table → ValueStruct
  | [] => ValueStruct.zero
  | t :: rest =>
    let v := t.Get cf key version keyHash
    if v.Valid then v else probeL0s cf key version keyHash rest

/-- The level loop of `getValue`: levels 1..N in order, empty levels are
skipped, first valid record wins. -/
def probeLevels (key : List Nat) (version keyHash : Nat) : List LevelHandler → ValueStruct
  | [] => ValueStruct.zero
  | lv :: rest =>
    if lv.tables.isEmpty then probeLevels key version keyHash rest
    else
      let v := lv.get key version keyHash
      if v.Valid then v else probeLevels key version keyHash rest

/-- The part of `getValue` after the splitting-memtable early return: the
memtable loop (whose index-0 probe advances the per-CF hint), the L0 loop,
then the level loop of the CF. -/
def SnapAccess.getValueCont (s : SnapAccess) (cf : Nat) (key : List Nat)
    (version keyHash : Nat) : ValueStruct × SnapAccess :=
  let mvh := probeMemTbls cf key version (s.hints.getD cf 0) s.memTables
  let s1 := { s with hints := s.hints.set cf mvh.2 }
  if mvh.1.Valid then (mvh.1, s1)
  else
    let lv := probeL0s cf key version keyHash s.l0Tables
    if lv.Valid then (lv, s1)
    else
      let scf := s.shard.cfs.getD cf ⟨[]⟩
      (probeLevels key version keyHash scf.levels, s1)

/-- `SnapAccess.getValue` (engine.go:642): when the shard is splitting,
the splitting memtable selected by `getSplittingIndex` is probed first and
a valid record returns early; then come the memtables, the L0 tables with
`farmhash(key)` as filter key, and the levels of the CF.  Returns the
found record together with the snapshot whose per-CF hint was advanced by
the index-0 memtable probe (when that probe ran). -/
def SnapAccess.getValue (s : SnapAccess) (cf : Nat) (key : List Nat) (version : Nat) :
    ValueStruct × SnapAccess :=
  let keyHash := farmFingerprint64 key
  match s.splitting with
  | some tbls =>
    let idx := s.shard.getSplittingIndex key
    let v := (tbls.getD idx (NewCFTable 0)).Get cf key version
    if v.Valid then (v, s) else s.getValueCont cf key version keyHash
  | none => s.getValueCont cf key version keyHash

/-- An `engine.Item` as populated by `SnapAccess.Get`. -/
structure Item where
  key : List Nat
  ver : Nat
  meta : Nat
  userMeta : List Nat
  val : List Nat
deriving DecidableEq, Repr

/-- The only error `SnapAccess.Get` returns (`ErrKeyNotFound`). -/
inductive EngineError where
  | keyNotFound
deriving DecidableEq, Repr

/-- `SnapAccess.Get` (engine.go:622): version 0 reads at `MaxUint64`;
invalid or tombstone results surface as `ErrKeyNotFound`; otherwise the
record is packaged into an `Item`. -/
def SnapAccess.Get (s : SnapAccess) (cf : Nat) (key : List Nat) (version : Nat) :
    Except EngineError Item × SnapAccess :=
  let version := if version = 0 then maxUint64 else version
  let r := s.getValue cf key version
  let vs := r.1
  if !vs.Valid then (.error .keyNotFound, r.2)
  else if IsDeleted vs.meta then (.error .keyNotFound, r.2)
  else (.ok ⟨key, vs.version, vs.meta, vs.userMeta, vs.value⟩, r.2)

/-- The loop of `SnapAccess.MultiGet`: `Get` per key (threading the hint
state), `ErrKeyNotFound` becomes a nil item, any other error aborts. -/
def multiGetLoop (cf : Nat) (version : Nat) :
    List (List Nat) → SnapAccess → Except EngineError (List (Option Item)) × SnapAccess
  | [], s => (.ok [], s)
  | k :: rest, s =>
    let r := s.Get cf k version
    match r.1 with
    | .ok item =>
      let tail := multiGetLoop cf version rest r.2
      (tail.1.map (some item :: ·), tail.2)
    | .error e =>
      if e = .keyNotFound then
        let tail := multiGetLoop cf version rest r.2
        (tail.1.map (none :: ·), tail.2)
      else (.error e, r.2)

/-- `SnapAccess.MultiGet` (engine.go:682): version 0 reads at `MaxUint64`,
then `Get` for each key. -/
def SnapAccess.MultiGet (s : SnapAccess) (cf : Nat) (keys : List (List Nat)) (version : Nat) :
    Except EngineError (List (Option Item)) × SnapAccess :=
  let version := if version = 0 then maxUint64 else version
  multiGetLoop cf version keys s

/-! ## TriggerFlush (engine.go lines 801-822) -/

/-- The engine state `TriggerFlush` reads (`numCFs` for the placeholder
memtable). -/
structure Engine where
  numCFs : Nat

/-- The descending index sequence of the `TriggerFlush` loop:
`downFrom n = [n, n-1, ..., 1]` (the loop guard is `i > 0`). -/
def downFrom : Nat → List Nat
  | 0 => []
  | n + 1 => (n + 1) :: downFrom n

/-- `Engine.TriggerFlush` (engine.go:801), reified as the ordered list of
memtables sent to the flush channel, together with the post-call shard
(whose commit-version counter is bumped exactly when the empty-placeholder
branch fires).  The loop runs `i` from `len(mems)-skipCnt-1` down to `1`;
when the slice holds a single, empty memtable and the shard has not had
its initial flush, a fresh empty memtable carrying a newly allocated
commit version is enqueued instead. -/
def Engine.TriggerFlush (en : Engine) (shard : Shard) (skipCnt : Nat) :
    List MemTable × Shard :=
  let mems := shard.memTbls
  let loopTasks :=
    (downFrom (mems.length - skipCnt - 1)).map (fun i => mems.getD i (NewCFTable 0))
  if mems.length = 1 ∧ (mems.headD (NewCFTable 0)).Empty = true then
    if shard.IsInitialFlushed = false then
      let (commitTS, shard1) := shard.allocCommitTS
      (loopTasks ++ [(NewCFTable en.numCFs).SetVersion commitTS], shard1)
    else (loopTasks, shard)
  else (loopTasks, shard)

/-! ## Id allocators (engine.go:494, mock region manager) -/

/-- `localIDAllocator.AllocID` (engine.go:494): `atomic.AddUint64` of the
count, returning the new (wrapped) counter value; the new value is also
the new allocator state. -/
def localIDAllocator.AllocID (latest : Nat) (count : Nat) : Nat :=
  (latest + count) % 2 ^ 64

/-- `MockRegionManager.AllocIDs` (for a positive `n`): bump the counter by
`n` (uint64 wrap) to `max`, then return the ids `max-(n-1), ..., max` (all
uint64 arithmetic), together with the new counter value. -/
def MockRegionManager.AllocIDs (id : Nat) (n : Nat) : List Nat × Nat :=
  let mx := (id + n) % 2 ^ 64
  let base := (mx + 2 ^ 64 - ((n - 1) % 2 ^ 64)) % 2 ^ 64
  ((List.range n).map (fun i => (base + i) % 2 ^ 64), mx)

/-- The ids returned by a sequence of `AllocID` calls with the given
counts, starting from counter value `latest`. -/
def allocReturns (latest : Nat) : List Nat → List Nat
  | [] => []
  | c :: cs =>
    let nl := localIDAllocator.AllocID latest c
    nl :: allocReturns nl cs

/-- A sequence of allocator calls, each paired with the id run it
produces: the returned id and the `AllocIDs`-style run of `count` ids
ending at it. -/
def allocSeq (latest : Nat) : List Nat → List (Nat × List Nat)
  | [] => []
  | c :: cs =>
    let nl := localIDAllocator.AllocID latest c
    (nl, (MockRegionManager.AllocIDs latest c).1) :: allocSeq nl cs

/-! ## Config duration parsing (config.ParseDuration)

`time.ParseDuration` is Go standard-library code; it is modelled here on
whole-number durations: an optional sign, then one or more
`<digits><unit>` items (the model leaves out fractional values, which no
theorem below relies on), with the special case that a bare "0" needs no
unit. -/

/-- The Go duration unit table, in nanoseconds. -/
def durUnits : List (List Char × Nat) :=
  [ (['n', 's'], 1)
  , (['u', 's'], 1000)
  , (['µ', 's'], 1000)
  , (['μ', 's'], 1000)
  , (['m', 's'], 1000000)
  , (['s'], 1000000000)
  , (['m'], 60 * 1000000000)
  , (['h'], 3600 * 1000000000) ]

/-- Decimal digits to a number. -/
def digitsToNat (ds : List Char) : Nat :=
  ds.foldl (fun n c => n * 10 + (c.toNat - '0'.toNat)) 0

/-- The item loop of `time.ParseDuration`: repeatedly read a digit run and
a unit run (the characters before the next digit), look the unit up, and
accumulate; the fuel is the remaining string length (every round consumes
at least one character). -/
def parseDurLoop : Nat → List Char → Option Nat
  | _, [] => some 0
  | 0, _ :: _ => none
  | fuel + 1, s =>
    let ds := s.takeWhile (·.isDigit)
    let rest := s.dropWhile (·.isDigit)
    if ds.isEmpty then none
    else
      let us := rest.takeWhile (fun c => !c.isDigit && c ≠ '.')
      let rest2 := rest.dropWhile (fun c => !c.isDigit && c ≠ '.')
      if us.isEmpty then none
      else
        match (durUnits.find? (·.1 = us)).map (·.2) with
        | none => none
        | some unit =>
          (parseDurLoop fuel rest2).map (fun tail => digitsToNat ds * unit + tail)

/-- Model of Go `time.ParseDuration` (whole-number durations): optional
sign, the bare-"0" special case, otherwise at least one number+unit item;
the result is in nanoseconds and may be negative. -/
def goParseDuration (str : String) : Option Int :=
  let s := str.toList
  let signed : Bool × List Char :=
    match s with
    | '-' :: rest => (true, rest)
    | '+' :: rest => (false, rest)
    | _ => (false, s)
  let neg := signed.1
  let s1 := signed.2
  if s1 = ['0'] then some 0
  else if s1.isEmpty then none
  else
    (parseDurLoop s1.length s1).map (fun n => if neg then -(n : Int) else (n : Int))

/-- The observable outcome of `config.ParseDuration`: a returned duration
or a fatal process abort. -/
inductive DurResult where
  | ok (d : Int)
  | fatal
deriving DecidableEq, Repr

/-- `config.ParseDuration` (part_000:146): parse; on failure retry with an
appended "s"; abort fatally when the surviving parse failed or produced a
negative duration. -/
def ParseDuration (s : String) : DurResult :=
  match goParseDuration s with
  | some d => if d < 0 then .fatal else .ok d
  | none =>
    match goParseDuration (s ++ "s") with
    | some d => if d < 0 then .fatal else .ok d
    | none => .fatal

/-! ## Helper lemmas -/

theorem foldl_len_map_nil (l : List (List Entry)) (acc : Nat) :
    ((l.map fun _ => ([] : List Entry)).foldl (fun n es => n + es.length) acc) = acc := by
  induction l generalizing acc with
  | nil => rfl
  | cons x xs ih => simpa using ih acc

theorem foldl_len_replicate_nil (n acc : Nat) :
    ((List.replicate n ([] : List Entry)).foldl (fun n es => n + es.length) acc) = acc := by
  induction n generalizing acc with
  | zero => rfl
  | succ m ih => simpa [List.replicate_succ] using ih acc

theorem getD_map_nil (l : List (List Entry)) (i : Nat) :
    (l.map fun _ => ([] : List Entry)).getD i [] = [] := by
  induction l generalizing i with
  | nil => rfl
  | cons x xs ih => cases i with
    | zero => rfl
    | succ j => simp [ih j]

theorem getD_replicate_nil (n i : Nat) :
    (List.replicate n ([] : List Entry)).getD i [] = [] := by
  induction n generalizing i with
  | zero => rfl
  | succ m ih => cases i with
    | zero => rfl
    | succ j => simp [List.replicate_succ, ih j]

/-! ## Claim theorems: write batches -/

/-- Claim C2: `WriteBatch.Put` and `WriteBatch.Delete` return an error
exactly when the CF's managed flag mismatches the version (managed with
version 0, or unmanaged with nonzero version); on a match the entry is
appended to the CF's entry list and no error is returned. -/
theorem writeBatch_put_delete_version_rule (wb : WriteBatch) (cf : Nat) (key : List Nat)
    (val : ValueStruct) (version : Nat) (hcf : cf < wb.cfConfs.length)
    (he : cf < wb.entries.length) :
    ((wb.Put cf key val).1.isSome = true ↔
      ((wb.cfConfs.getD cf ⟨false⟩).managed = true ∧ val.version = 0)
      ∨ ((wb.cfConfs.getD cf ⟨false⟩).managed = false ∧ val.version ≠ 0))
    ∧ ((wb.Put cf key val).1 = none →
        (wb.Put cf key val).2.entries.getD cf [] =
          (wb.entries.getD cf []).concat ⟨key, val⟩)
    ∧ ((wb.Delete cf key version).1.isSome = true ↔
      ((wb.cfConfs.getD cf ⟨false⟩).managed = true ∧ version = 0)
      ∨ ((wb.cfConfs.getD cf ⟨false⟩).managed = false ∧ version ≠ 0))
    ∧ ((wb.Delete cf key version).1 = none →
        (wb.Delete cf key version).2.entries.getD cf [] =
          (wb.entries.getD cf []).concat ⟨key, ⟨BitDelete, [], version, []⟩⟩) := by
  have hset : ∀ es : List Entry, (wb.entries.set cf es)[cf]?.getD [] = es := fun es => by
    rw [List.getElem?_set_eq_of_lt es he]
    rfl
  unfold WriteBatch.Put WriteBatch.Delete WriteBatch.allocEntry
  rcases hm : (wb.cfConfs.getD cf ⟨false⟩).managed with _ | _ <;>
    by_cases hv : val.version = 0 <;> by_cases hw : version = 0 <;>
      simp [hm, hv, hw, hset]

/-- Claim C9: a rejected `Put` or `Delete` (managed/unmanaged version
mismatch) leaves the write batch completely unchanged. -/
theorem writeBatch_reject_leaves_batch_unchanged (wb : WriteBatch) (cf : Nat)
    (key : List Nat) (val : ValueStruct) (version : Nat) :
    ((wb.Put cf key val).1.isSome = true → (wb.Put cf key val).2 = wb)
    ∧ ((wb.Delete cf key version).1.isSome = true → (wb.Delete cf key version).2 = wb) := by
  unfold WriteBatch.Put WriteBatch.Delete WriteBatch.allocEntry
  rcases hm : (wb.cfConfs.getD cf ⟨false⟩).managed with _ | _ <;>
    by_cases hv : val.version = 0 <;> by_cases hw : version = 0 <;>
      simp [hm, hv, hw]

/-- A concrete one-CF managed write batch used by witnesses. -/
def wbManaged : WriteBatch := Engine.NewWriteBatch [⟨true⟩]

theorem writeBatch_reject_leaves_batch_unchanged_witness :
    (wbManaged.Put 0 [] ValueStruct.zero).2 = wbManaged :=
  (writeBatch_reject_leaves_batch_unchanged wbManaged 0 [] ValueStruct.zero 0).1 (by decide)

theorem writeBatch_put_delete_version_rule_witness :
    (wbManaged.Put 0 [] ValueStruct.zero).1.isSome = true :=
  ((writeBatch_put_delete_version_rule wbManaged 0 [] ValueStruct.zero 0
      (by decide) (by decide)).1).2 (Or.inl (by decide))

/-- Claim C10: after `Reset`, a write batch is observationally a freshly
created batch: zero entries, zero estimated size, `Iterate` visits nothing
for any CF and visitor, and the properties map is empty. -/
theorem writeBatch_reset_observationally_fresh (wb : WriteBatch) :
    wb.Reset.NumEntries = 0
    ∧ wb.Reset.EstimatedSize = 0
    ∧ (∀ cf fn, wb.Reset.Iterate cf fn = [])
    ∧ wb.Reset.properties = []
    ∧ wb.Reset.NumEntries = (Engine.NewWriteBatch wb.cfConfs).NumEntries
    ∧ wb.Reset.EstimatedSize = (Engine.NewWriteBatch wb.cfConfs).EstimatedSize
    ∧ (∀ cf fn, wb.Reset.Iterate cf fn = (Engine.NewWriteBatch wb.cfConfs).Iterate cf fn)
    ∧ wb.Reset.properties = (Engine.NewWriteBatch wb.cfConfs).properties := by
  refine ⟨?_, rfl, ?_, rfl, ?_, rfl, ?_, rfl⟩
  · exact foldl_len_map_nil wb.entries 0
  · intro cf fn
    simp [WriteBatch.Iterate, WriteBatch.Reset, getD_map_nil, visitList]
  · simp [WriteBatch.NumEntries, WriteBatch.Reset, Engine.NewWriteBatch,
      foldl_len_map_nil, foldl_len_replicate_nil]
  · intro cf fn
    simp [WriteBatch.Iterate, WriteBatch.Reset, Engine.NewWriteBatch,
      getD_map_nil, getD_replicate_nil, visitList]

/-! ## Claim theorems: snapshot version-0 reads -/

/-- Claim C4: snapshot `Get` (and `MultiGet`) with version 0 behaves
exactly as with version `MaxUint64`. -/
theorem snapAccess_version_zero_reads_at_max (s : SnapAccess) (cf : Nat) (key : List Nat)
    (keys : List (List Nat)) :
    s.Get cf key 0 = s.Get cf key maxUint64
    ∧ s.MultiGet cf keys 0 = s.MultiGet cf keys maxUint64 := by
  have hmax : ¬(maxUint64 = 0) := by decide
  constructor
  · rw [SnapAccess.Get, SnapAccess.Get]
    simp [hmax]
  · rw [SnapAccess.MultiGet, SnapAccess.MultiGet]
    simp [hmax]

/-! ## Claim theorems: TriggerFlush -/

theorem triggerFlush_eq (en : Engine) (shard : Shard) (skipCnt : Nat) :
    en.TriggerFlush shard skipCnt =
      if shard.memTbls.length = 1 ∧ (shard.memTbls.headD (NewCFTable 0)).Empty = true
          ∧ shard.IsInitialFlushed = false
      then ((downFrom (shard.memTbls.length - skipCnt - 1)).map
              (fun i => shard.memTbls.getD i (NewCFTable 0)) ++
            [(NewCFTable en.numCFs).SetVersion (shard.commitTS + 1)],
            { shard with commitTS := shard.commitTS + 1 })
      else ((downFrom (shard.memTbls.length - skipCnt - 1)).map
              (fun i => shard.memTbls.getD i (NewCFTable 0)), shard) := by
  show (if shard.memTbls.length = 1 ∧ (shard.memTbls.headD (NewCFTable 0)).Empty = true
      then _ else _) = _
  by_cases h1 : shard.memTbls.length = 1 ∧ (shard.memTbls.headD (NewCFTable 0)).Empty = true
  · by_cases h2 : shard.IsInitialFlushed = false
    · rw [if_pos h1, if_pos h2, if_pos ⟨h1.1, h1.2, h2⟩]
      rfl
    · rw [if_pos h1, if_neg h2, if_neg (by tauto)]
  · rw [if_neg h1, if_neg (by tauto)]

theorem mem_downFrom {n i : Nat} : i ∈ downFrom n ↔ 1 ≤ i ∧ i ≤ n := by
  induction n with
  | zero => simp only [downFrom, List.not_mem_nil, false_iff]; omega
  | succ m ih =>
    simp only [downFrom, List.mem_cons, ih]
    omega

theorem downFrom_map_getD {α : Type} (l : List α) (a d : α) (n : Nat) (h : n ≤ l.length) :
    (downFrom n).map (fun i => (a :: l).getD i d) = (l.take n).reverse := by
  induction n with
  | zero => rfl
  | succ m ih =>
    have hm : m < l.length := h
    have hgd : (a :: l).getD (m + 1) d = l[m] := by
      rw [List.getD_eq_getElem?_getD]
      simp [List.getElem?_eq_getElem hm]
    rw [downFrom, List.map_cons, ih (Nat.le_of_lt hm), hgd]
    simp only [List.take_succ, List.getElem?_eq_getElem hm, Option.toList_some,
      List.reverse_append, List.reverse_cons, List.reverse_nil, List.nil_append,
      List.singleton_append, List.cons_append]

/-- The memtables the claim says `TriggerFlush` should enqueue: all
immutables except the `skipCnt` most recently sealed ones (the lowest
immutable indices), in oldest-first order. -/
def specTriggerFlushTasks (shard : Shard) (skipCnt : Nat) : List MemTable :=
  match shard.memTbls with
  | [] => []
  | _ :: imms => (imms.drop skipCnt).reverse

/-- An empty memtable tagged with a commit version, for concrete shards. -/
def mtVer (v : Nat) : MemTable := (NewCFTable 1).SetVersion v

/-- A shard with an active memtable and two immutables: index 1 (version
2) was sealed last, index 2 (version 1) was sealed first. -/
def shardThreeMems : Shard :=
  { memTbls := [mtVer 0, mtVer 2, mtVer 1]
    cfs := []
    splittingIdx := fun _ => 0
    initialFlushed := true
    commitTS := 0 }

/-- Claim C3 counterexample: with two immutables (newest version 2 at
index 1, oldest version 1 at index 2) and `skipCnt = 1`, the code enqueues
the newest immutable (version 2) — it skips the oldest one — while the
claim demands the oldest (version 1) be enqueued and the most recently
sealed one be skipped. -/
theorem triggerFlush_skip_direction_counterexample :
    (Engine.TriggerFlush ⟨1⟩ shardThreeMems 1).1.map MemTable.GetVersion = [2]
    ∧ (specTriggerFlushTasks shardThreeMems 1).map MemTable.GetVersion = [1]
    ∧ (Engine.TriggerFlush ⟨1⟩ shardThreeMems 1).1.map MemTable.GetVersion ≠
        (specTriggerFlushTasks shardThreeMems 1).map MemTable.GetVersion := by
  refine ⟨rfl, rfl, ?_⟩
  decide

/-- Claim C3 (amended): `TriggerFlush` enqueues exactly the immutable
memtables except the `skipCnt` earliest-sealed (oldest, highest-index)
ones, in oldest-first order — followed by the empty-shard placeholder
memtable exactly in the empty never-flushed case. -/
theorem triggerFlush_enqueues_oldest_first (en : Engine) (shard : Shard) (skipCnt : Nat)
    (active : MemTable) (imms : List MemTable) (h : shard.memTbls = active :: imms) :
    (en.TriggerFlush shard skipCnt).1 =
      imms.reverse.drop skipCnt ++
        (if imms.isEmpty = true ∧ active.Empty = true ∧ shard.IsInitialFlushed = false
         then [(NewCFTable en.numCFs).SetVersion shard.allocCommitTS.1] else []) := by
  have hloop : (downFrom (shard.memTbls.length - skipCnt - 1)).map
      (fun i => shard.memTbls.getD i (NewCFTable 0)) = imms.reverse.drop skipCnt := by
    have hlen : shard.memTbls.length - skipCnt - 1 = imms.length - skipCnt := by
      rw [h]
      simp only [List.length_cons]
      omega
    rw [hlen, h, downFrom_map_getD imms active (NewCFTable 0) _ (by omega), List.reverse_take]
    rcases Nat.le_total skipCnt imms.length with hle | hge
    · congr 1
      omega
    · have e1 : imms.length - (imms.length - skipCnt) = imms.length := by omega
      rw [e1, List.drop_eq_nil_of_le (by simp), List.drop_eq_nil_of_le (by simp [hge])]
  have hcond : (shard.memTbls.length = 1 ∧ (shard.memTbls.headD (NewCFTable 0)).Empty = true
      ∧ shard.IsInitialFlushed = false) ↔
      (imms.isEmpty = true ∧ active.Empty = true ∧ shard.IsInitialFlushed = false) := by
    rw [h]
    rcases imms with _ | ⟨x, xs⟩ <;> simp
  rw [triggerFlush_eq]
  by_cases hc : imms.isEmpty = true ∧ active.Empty = true ∧ shard.IsInitialFlushed = false
  · rw [if_pos (hcond.2 hc), if_pos hc]
    simp only [hloop]
    rfl
  · rw [if_neg (fun hh => hc (hcond.1 hh)), if_neg hc]
    simp only [hloop]
    simp

theorem triggerFlush_enqueues_oldest_first_witness :
    (Engine.TriggerFlush ⟨1⟩ shardThreeMems 1).1 =
      ([mtVer 2, mtVer 1] : List MemTable).reverse.drop 1 ++
        (if ([mtVer 2, mtVer 1] : List MemTable).isEmpty = true ∧ (mtVer 0).Empty = true
            ∧ shardThreeMems.IsInitialFlushed = false
         then [(NewCFTable (Engine.mk 1).numCFs).SetVersion shardThreeMems.allocCommitTS.1]
         else []) :=
  triggerFlush_enqueues_oldest_first ⟨1⟩ shardThreeMems 1 (mtVer 0) [mtVer 2, mtVer 1] rfl

/-- Claim C6: `TriggerFlush` on a shard whose memtable slice is a single
empty memtable enqueues one fresh empty placeholder memtable carrying a
newly allocated commit version exactly when the shard has not had its
initial flush; in every other state everything enqueued is one of the
shard's own memtables and the shard (in particular its commit-version
counter) is untouched. -/
theorem triggerFlush_placeholder_iff_empty_unflushed (en : Engine) (shard : Shard)
    (skipCnt : Nat) :
    ((shard.memTbls.length = 1 ∧ (shard.memTbls.headD (NewCFTable 0)).Empty = true
        ∧ shard.IsInitialFlushed = false) →
      (en.TriggerFlush shard skipCnt).1 =
          [(NewCFTable en.numCFs).SetVersion shard.allocCommitTS.1]
        ∧ (en.TriggerFlush shard skipCnt).2.commitTS = shard.commitTS + 1)
    ∧ (¬(shard.memTbls.length = 1 ∧ (shard.memTbls.headD (NewCFTable 0)).Empty = true
        ∧ shard.IsInitialFlushed = false) →
      (∀ t ∈ (en.TriggerFlush shard skipCnt).1, t ∈ shard.memTbls)
        ∧ (en.TriggerFlush shard skipCnt).2 = shard) := by
  have hloopmem : ∀ t ∈ (downFrom (shard.memTbls.length - skipCnt - 1)).map
      (fun i => shard.memTbls.getD i (NewCFTable 0)), t ∈ shard.memTbls := by
    intro t ht
    rcases List.mem_map.1 ht with ⟨i, hi, rfl⟩
    rcases mem_downFrom.1 hi with ⟨h1, h2⟩
    have hilt : i < shard.memTbls.length := by
      have : shard.memTbls.length - skipCnt - 1 ≤ shard.memTbls.length - 1 := by omega
      omega
    rw [List.getD_eq_getElem?_getD, List.getElem?_eq_getElem hilt]
    exact List.getElem_mem hilt
  constructor
  · rintro ⟨h1, h2, h3⟩
    have hzero : shard.memTbls.length - skipCnt - 1 = 0 := by omega
    rw [triggerFlush_eq, if_pos ⟨h1, h2, h3⟩, hzero]
    exact ⟨rfl, rfl⟩
  · intro hnot
    rw [triggerFlush_eq, if_neg hnot]
    exact ⟨hloopmem, rfl⟩

/-- A never-flushed shard holding one empty memtable. -/
def shardEmptyFresh : Shard :=
  { memTbls := [NewCFTable 1]
    cfs := []
    splittingIdx := fun _ => 0
    initialFlushed := false
    commitTS := 5 }

theorem triggerFlush_placeholder_iff_empty_unflushed_witness :
    (Engine.TriggerFlush ⟨1⟩ shardEmptyFresh 0).1 =
        [(NewCFTable (Engine.mk 1).numCFs).SetVersion shardEmptyFresh.allocCommitTS.1]
      ∧ (Engine.TriggerFlush ⟨1⟩ shardEmptyFresh 0).2.commitTS = shardEmptyFresh.commitTS + 1 :=
  (triggerFlush_placeholder_iff_empty_unflushed ⟨1⟩ shardEmptyFresh 0).1 ⟨rfl, rfl, rfl⟩


/-! ## Claim theorems: id allocation -/

theorem allocID_no_wrap {latest c : Nat} (h : latest + c < 2 ^ 64) :
    localIDAllocator.AllocID latest c = latest + c :=
  Nat.mod_eq_of_lt h

theorem allocIDs_run_no_wrap {latest c : Nat} (hc : 0 < c) (h : latest + c < 2 ^ 64) :
    (MockRegionManager.AllocIDs latest c).1 = (List.range c).map (fun i => latest + 1 + i) := by
  unfold MockRegionManager.AllocIDs
  simp only
  apply List.map_congr_left
  intro i hi
  have hic : i < c := List.mem_range.1 hi
  have hmx : (latest + c) % 2 ^ 64 = latest + c := Nat.mod_eq_of_lt h
  have hc1 : (c - 1) % 2 ^ 64 = c - 1 := Nat.mod_eq_of_lt (by omega)
  rw [hmx, hc1]
  have hbase : (latest + c + 2 ^ 64 - (c - 1)) % 2 ^ 64 = (latest + 1) % 2 ^ 64 := by
    have e : latest + c + 2 ^ 64 - (c - 1) = latest + 1 + 2 ^ 64 := by omega
    rw [e, Nat.add_mod_right]
  rw [hbase, Nat.mod_add_mod]
  exact Nat.mod_eq_of_lt (by omega)

theorem mem_allocRun {latest c x : Nat} (hc : 0 < c) (h : latest + c < 2 ^ 64) :
    x ∈ (MockRegionManager.AllocIDs latest c).1 ↔ latest < x ∧ x ≤ latest + c := by
  rw [allocIDs_run_no_wrap hc h]
  simp only [List.mem_map, List.mem_range]
  constructor
  · rintro ⟨i, hi, rfl⟩
    omega
  · rintro ⟨h1, h2⟩
    exact ⟨x - latest - 1, by omega, by omega⟩

theorem allocSeq_bounds {cs : List Nat} : ∀ {latest : Nat},
    (∀ c ∈ cs, 0 < c) → latest + cs.sum < 2 ^ 64 →
    ∀ p ∈ allocSeq latest cs,
      (latest < p.1 ∧ p.1 ≤ latest + cs.sum)
      ∧ ∀ x ∈ p.2, latest < x ∧ x ≤ latest + cs.sum := by
  induction cs with
  | nil =>
    intro latest _ _ p hp
    simp [allocSeq] at hp
  | cons c cs ih =>
    intro latest hpos hnof p hp
    have hc : 0 < c := hpos c (List.mem_cons_self c cs)
    have hsum : latest + (c + cs.sum) < 2 ^ 64 := by
      simpa [List.sum_cons] using hnof
    have hnl : localIDAllocator.AllocID latest c = latest + c :=
      allocID_no_wrap (by omega)
    rw [allocSeq, hnl] at hp
    rcases List.mem_cons.1 hp with rfl | htail
    · refine ⟨⟨by omega, by simp only [List.sum_cons]; omega⟩, ?_⟩
      intro x hx
      have hb := (mem_allocRun hc (by omega)).1 hx
      refine ⟨by omega, ?_⟩
      simp only [List.sum_cons]
      omega
    · have hcs : (latest + c) + cs.sum < 2 ^ 64 := by omega
      have := ih (fun d hd => hpos d (List.mem_cons_of_mem c hd)) hcs p htail
      refine ⟨⟨by omega, ?_⟩, ?_⟩
      · have h1 := this.1.2
        simp only [List.sum_cons]
        omega
      · intro x hx
        have h2 := this.2 x hx
        simp only [List.sum_cons]
        omega

theorem allocSeq_fst_eq_allocReturns (latest : Nat) (cs : List Nat) :
    (allocSeq latest cs).map (fun p => p.1) = allocReturns latest cs := by
  induction cs generalizing latest with
  | nil => rfl
  | cons c cs ih => simp [allocSeq, allocReturns, ih]

theorem allocSeq_returns_pairwise {cs : List Nat} : ∀ {latest : Nat},
    (∀ c ∈ cs, 0 < c) → latest + cs.sum < 2 ^ 64 →
    ((allocSeq latest cs).map (fun p => p.1)).Pairwise (· < ·) := by
  induction cs with
  | nil =>
    intro latest _ _
    simp [allocSeq]
  | cons c cs ih =>
    intro latest hpos hnof
    have hc : 0 < c := hpos c (List.mem_cons_self c cs)
    have hsum : latest + (c + cs.sum) < 2 ^ 64 := by
      simpa [List.sum_cons] using hnof
    have hnl : localIDAllocator.AllocID latest c = latest + c :=
      allocID_no_wrap (by omega)
    rw [allocSeq, hnl, List.map_cons, List.pairwise_cons]
    constructor
    · intro b hb
      rcases List.mem_map.1 hb with ⟨p, hp, rfl⟩
      have := (allocSeq_bounds (fun d hd => hpos d (List.mem_cons_of_mem c hd))
        (by omega : (latest + c) + cs.sum < 2 ^ 64) p hp).1.1
      omega
    · exact ih (fun d hd => hpos d (List.mem_cons_of_mem c hd))
        (by omega : (latest + c) + cs.sum < 2 ^ 64)

theorem allocSeq_runs_disjoint {cs : List Nat} : ∀ {latest : Nat},
    (∀ c ∈ cs, 0 < c) → latest + cs.sum < 2 ^ 64 →
    ((allocSeq latest cs).map (fun p => p.2)).Pairwise
      (fun r s => ∀ x ∈ r, ∀ y ∈ s, x ≠ y) := by
  induction cs with
  | nil =>
    intro latest _ _
    simp [allocSeq]
  | cons c cs ih =>
    intro latest hpos hnof
    have hc : 0 < c := hpos c (List.mem_cons_self c cs)
    have hsum : latest + (c + cs.sum) < 2 ^ 64 := by
      simpa [List.sum_cons] using hnof
    have hnl : localIDAllocator.AllocID latest c = latest + c :=
      allocID_no_wrap (by omega)
    rw [allocSeq, hnl, List.map_cons, List.pairwise_cons]
    constructor
    · intro s hs x hx y hy
      rcases List.mem_map.1 hs with ⟨p, hp, rfl⟩
      have hxb := (mem_allocRun hc (by omega)).1 hx
      have hyb := (allocSeq_bounds (fun d hd => hpos d (List.mem_cons_of_mem c hd))
        (by omega : (latest + c) + cs.sum < 2 ^ 64) p hp).2 y hy
      omega
    · exact ih (fun d hd => hpos d (List.mem_cons_of_mem c hd))
        (by omega : (latest + c) + cs.sum < 2 ^ 64)

/-- Claim C7 (amended): as long as the allocator counter does not wrap
(start value plus total allocated count below 2^64), a sequence of
allocations with positive counts returns strictly increasing ids and
produces pairwise disjoint id runs. -/
theorem allocID_unique_runs (latest : Nat) (cs : List Nat)
    (hpos : ∀ c ∈ cs, 0 < c) (hnof : latest + cs.sum < 2 ^ 64) :
    (allocReturns latest cs).Pairwise (· < ·)
    ∧ ((allocSeq latest cs).map (fun p => p.2)).Pairwise
        (fun r s => ∀ x ∈ r, ∀ y ∈ s, x ≠ y)
    ∧ (allocSeq latest cs).map (fun p => p.1) = allocReturns latest cs := by
  refine ⟨?_, allocSeq_runs_disjoint hpos hnof, allocSeq_fst_eq_allocReturns latest cs⟩
  rw [← allocSeq_fst_eq_allocReturns]
  exact allocSeq_returns_pairwise hpos hnof

theorem allocID_unique_runs_witness :
    (allocReturns 0 [1, 2]).Pairwise (· < ·)
    ∧ ((allocSeq 0 [1, 2]).map (fun p => p.2)).Pairwise
        (fun r s => ∀ x ∈ r, ∀ y ∈ s, x ≠ y)
    ∧ (allocSeq 0 [1, 2]).map (fun p => p.1) = allocReturns 0 [1, 2] :=
  allocID_unique_runs 0 [1, 2] (by decide) (by norm_num)

/-- Claim C7 counterexample: uint64 wraparound.  Starting from the zero
counter, the positive counts 2^63-1, 2^63-1, 2 (each a legal Go `int`)
make the third `AllocID` call wrap and return 0, so the returned ids are
not strictly increasing across calls. -/
theorem allocID_wraparound_counterexample :
    (∀ c ∈ [2 ^ 63 - 1, 2 ^ 63 - 1, 2], 0 < c)
    ∧ allocReturns 0 [2 ^ 63 - 1, 2 ^ 63 - 1, 2] = [2 ^ 63 - 1, 2 ^ 64 - 2, 0]
    ∧ ¬ (allocReturns 0 [2 ^ 63 - 1, 2 ^ 63 - 1, 2]).Pairwise (· < ·) := by
  refine ⟨by decide, by norm_num [allocReturns, localIDAllocator.AllocID], ?_⟩
  intro h
  have h2 := (List.pairwise_cons.1 (List.pairwise_cons.1 h).2).1
  have e : allocReturns 0 [2 ^ 63 - 1, 2 ^ 63 - 1, 2] = [2 ^ 63 - 1, 2 ^ 64 - 2, 0] := by
    norm_num [allocReturns, localIDAllocator.AllocID]
  rw [e] at h
  have := (List.pairwise_cons.1 (List.pairwise_cons.1 h).2).1 0 (by simp)
  omega


/-! ## Claim theorems: duration parsing -/

/-- Claim C8 counterexample: "-1s" parses as a (negative) duration, yet
`ParseDuration` aborts fatally instead of returning it — the fatal
condition is not only a parse failure. -/
theorem parseDuration_negative_counterexample :
    goParseDuration "-1s" = some (-1000000000)
    ∧ ParseDuration "-1s" = DurResult.fatal := by
  constructor <;> rfl

/-- Claim C8 (amended): `ParseDuration` returns the parsed duration when
the string parses non-negative; a unitless string (parse fails, but with
an appended "s" it parses non-negative) is interpreted in seconds; and it
aborts fatally exactly when the string fails to parse either way or the
surviving parse is negative. -/
theorem parseDuration_fatal_iff (s : String) :
    (ParseDuration s = DurResult.fatal ↔
        (goParseDuration s = none ∧ goParseDuration (s ++ "s") = none)
      ∨ (∃ d, goParseDuration s = some d ∧ d < 0)
      ∨ (goParseDuration s = none ∧ ∃ d, goParseDuration (s ++ "s") = some d ∧ d < 0))
    ∧ (∀ d : Int, goParseDuration s = some d → 0 ≤ d → ParseDuration s = DurResult.ok d)
    ∧ (∀ d : Int, goParseDuration s = none → goParseDuration (s ++ "s") = some d → 0 ≤ d →
        ParseDuration s = DurResult.ok d) := by
  unfold ParseDuration
  rcases h1 : goParseDuration s with _ | d1
  · rcases h2 : goParseDuration (s ++ "s") with _ | d2
    · simp
    · by_cases hneg : d2 < 0
      · simp only [if_pos hneg]
        refine ⟨?_, ?_, ?_⟩
        · simp only [true_iff]
          exact Or.inr (Or.inr ⟨trivial, d2, rfl, hneg⟩)
        · intro d hd
          exact absurd hd (by simp)
        · intro d _ hd hge
          cases hd
          omega
      · simp only [if_neg hneg]
        refine ⟨?_, ?_, ?_⟩
        · constructor
          · intro hfa
            cases hfa
          · rintro (⟨_, h⟩ | ⟨d, hd, _⟩ | ⟨_, d, hd, hneg2⟩)
            · cases h
            · cases hd
            · cases hd
              omega
        · intro d hd
          cases hd
        · intro d _ hd _
          cases hd
          rfl
  · by_cases hneg : d1 < 0
    · simp only [if_pos hneg]
      refine ⟨?_, ?_, ?_⟩
      · simp only [true_iff]
        exact Or.inr (Or.inl ⟨d1, rfl, hneg⟩)
      · intro d hd hge
        cases hd
        omega
      · intro d hd
        cases hd
    · simp only [if_neg hneg]
      refine ⟨?_, ?_, ?_⟩
      · constructor
        · intro hfa
          cases hfa
        · rintro (⟨h, _⟩ | ⟨d, hd, hneg2⟩ | ⟨h, _⟩)
          · cases h
          · cases hd
            omega
          · cases h
      · intro d hd _
        cases hd
        rfl
      · intro d hd
        cases hd

theorem parseDuration_fatal_iff_witness :
    ParseDuration "5" = DurResult.ok 5000000000 :=
  (parseDuration_fatal_iff "5").2.2 5000000000 rfl rfl (by norm_num)


/-! ## Claim theorems: the snapshot probe order -/

/-- The non-splitting part of the ordered lookup list of `getValue`: the
memtables newest-first (slice order), the L0 tables newest-first with
`farmhash(key)` as the filter key, then the at most one candidate table of
each level 1..N of the CF. -/
def SnapAccess.mainProbes (s : SnapAccess) (cf : Nat) (key : List Nat) (version : Nat) :
    List ValueStruct :=
  s.memTables.map (fun m => m.Get cf key version) ++
  s.l0Tables.map (fun t => t.Get cf key version (farmFingerprint64 key)) ++
  (s.shard.cfs.getD cf ⟨[]⟩).levels.filterMap (fun lv =>
    (lv.seekCandidate key).map (fun t => t.Get key version (farmFingerprint64 key)))

/-- The complete ordered list of source lookups `getValue` performs: the
splitting memtable selected by `getSplittingIndex` (when the shard is
splitting) first, then the main probes. -/
def SnapAccess.probeSequence (s : SnapAccess) (cf : Nat) (key : List Nat) (version : Nat) :
    List ValueStruct :=
  match s.splitting with
  | some tbls =>
    (tbls.getD (s.shard.getSplittingIndex key) (NewCFTable 0)).Get cf key version
      :: s.mainProbes cf key version
  | none => s.mainProbes cf key version

/-- The first valid record of a probe sequence (the zero struct when there
is none). -/
def firstValidIn : List ValueStruct → ValueStruct
  | [] => ValueStruct.zero
  | v :: rest => if v.Valid then v else firstValidIn rest

/-- The hint value the index-0 memtable probe of `getValue` leaves in the
per-CF hint slot. -/
def SnapAccess.memHintAfter (s : SnapAccess) (cf : Nat) (key : List Nat) (version : Nat) :
    Nat :=
  match s.memTables with
  | [] => s.hints.getD cf 0
  | m0 :: _ => m0.hintUpd cf key version (s.hints.getD cf 0)

/-- The hint state `getValue` leaves behind: only the index-0 memtable's
`GetWithHint` advances the per-CF hint, and only when the splitting probe
did not already return a valid record. -/
def SnapAccess.hintsAfter (s : SnapAccess) (cf : Nat) (key : List Nat) (version : Nat) :
    List Nat :=
  match s.splitting with
  | some tbls =>
    if ((tbls.getD (s.shard.getSplittingIndex key) (NewCFTable 0)).Get cf key version).Valid
    then s.hints
    else s.hints.set cf (s.memHintAfter cf key version)
  | none => s.hints.set cf (s.memHintAfter cf key version)

theorem zero_not_valid : ValueStruct.zero.Valid = false := rfl

theorem firstValidIn_append (xs ys : List ValueStruct) :
    firstValidIn (xs ++ ys) =
      (if (firstValidIn xs).Valid then firstValidIn xs else firstValidIn ys) := by
  induction xs with
  | nil => simp [firstValidIn, zero_not_valid]
  | cons v vs ih =>
    by_cases hv : v.Valid
    · simp [firstValidIn, hv]
    · simp [firstValidIn, hv, ih]

theorem probeMemRest_eq (cf : Nat) (key : List Nat) (version : Nat) (ms : List MemTable) :
    probeMemRest cf key version ms = firstValidIn (ms.map (fun m => m.Get cf key version)) := by
  induction ms with
  | nil => rfl
  | cons m ms ih =>
    by_cases hv : (m.Get cf key version).Valid
    · simp [probeMemRest, firstValidIn, hv]
    · simp [probeMemRest, firstValidIn, hv, ih]

theorem probeMemTbls_fst (cf : Nat) (key : List Nat) (version hint : Nat)
    (ms : List MemTable) :
    (probeMemTbls cf key version hint ms).1 =
      firstValidIn (ms.map (fun m => m.Get cf key version)) := by
  cases ms with
  | nil => rfl
  | cons m0 rest =>
    by_cases hv : (m0.Get cf key version).Valid
    · simp [probeMemTbls, MemTable.GetWithHint, firstValidIn, hv]
    · simp [probeMemTbls, MemTable.GetWithHint, firstValidIn, hv, probeMemRest_eq]

theorem probeMemTbls_snd (cf : Nat) (key : List Nat) (version hint : Nat)
    (ms : List MemTable) :
    (probeMemTbls cf key version hint ms).2 =
      match ms with
      | [] => hint
      | m0 :: _ => m0.hintUpd cf key version hint := by
  cases ms with
  | nil => rfl
  | cons m0 rest =>
    by_cases hv : (m0.Get cf key version).Valid
    · simp [probeMemTbls, MemTable.GetWithHint, hv]
    · simp [probeMemTbls, MemTable.GetWithHint, hv]

theorem probeL0s_eq (cf : Nat) (key : List Nat) (version keyHash : Nat)
    (ts : List L0Table) :
    probeL0s cf key version keyHash ts =
      firstValidIn (ts.map (fun t => t.Get cf key version keyHash)) := by
  induction ts with
  | nil => rfl
  | cons t ts ih =>
    by_cases hv : (t.Get cf key version keyHash).Valid
    · simp [probeL0s, firstValidIn, hv]
    · simp [probeL0s, firstValidIn, hv, ih]

theorem probeLevels_eq (key : List Nat) (version keyHash : Nat) (ls : List LevelHandler) :
    probeLevels key version keyHash ls =
      firstValidIn (ls.filterMap (fun lv =>
        (lv.seekCandidate key).map (fun t => t.Get key version keyHash))) := by
  induction ls with
  | nil => rfl
  | cons lv rest ih =>
    by_cases he : lv.tables.isEmpty
    · have hc : lv.seekCandidate key = none := by
        unfold LevelHandler.seekCandidate
        rw [List.isEmpty_iff.1 he]
        rfl
      simp [probeLevels, he, hc, ih]
    · rcases hc : lv.seekCandidate key with _ | t
      · have hg : lv.get key version keyHash = ValueStruct.zero := by
          unfold LevelHandler.get
          rw [hc]
        simp [probeLevels, he, hg, hc, ih, zero_not_valid]
      · have hg : lv.get key version keyHash = t.Get key version keyHash := by
          unfold LevelHandler.get
          rw [hc]
        by_cases hv : (t.Get key version keyHash).Valid
        · simp [probeLevels, he, hg, hc, firstValidIn, hv]
        · simp [probeLevels, he, hg, hc, firstValidIn, hv, ih]

theorem mainProbes_firstValid (s : SnapAccess) (cf : Nat) (key : List Nat) (version : Nat) :
    firstValidIn (s.mainProbes cf key version) =
      (if (firstValidIn (s.memTables.map (fun m => m.Get cf key version))).Valid then
        firstValidIn (s.memTables.map (fun m => m.Get cf key version))
      else if (firstValidIn (s.l0Tables.map
          (fun t => t.Get cf key version (farmFingerprint64 key)))).Valid then
        firstValidIn (s.l0Tables.map (fun t => t.Get cf key version (farmFingerprint64 key)))
      else
        firstValidIn ((s.shard.cfs.getD cf ⟨[]⟩).levels.filterMap (fun lv =>
          (lv.seekCandidate key).map
            (fun t => t.Get key version (farmFingerprint64 key))))) := by
  unfold SnapAccess.mainProbes
  rw [firstValidIn_append, firstValidIn_append]
  by_cases h1 : (firstValidIn (s.memTables.map (fun m => m.Get cf key version))).Valid
  · simp [h1]
  · simp [h1]

theorem getValueCont_eq (s : SnapAccess) (cf : Nat) (key : List Nat) (version : Nat) :
    s.getValueCont cf key version (farmFingerprint64 key) =
      (firstValidIn (s.mainProbes cf key version),
        { s with hints := s.hints.set cf (s.memHintAfter cf key version) }) := by
  unfold SnapAccess.getValueCont SnapAccess.memHintAfter
  simp only []
  rw [mainProbes_firstValid, probeMemTbls_fst, probeMemTbls_snd, probeL0s_eq, probeLevels_eq]
  by_cases h1 : (firstValidIn (s.memTables.map (fun m => m.Get cf key version))).Valid
  · simp [h1]
  · by_cases h2 : (firstValidIn (s.l0Tables.map
        (fun t => t.Get cf key version (farmFingerprint64 key)))).Valid
    · simp [h1, h2]
    · simp [h1, h2]

theorem getValue_eq (s : SnapAccess) (cf : Nat) (key : List Nat) (version : Nat) :
    s.getValue cf key version =
      (firstValidIn (s.probeSequence cf key version),
        { s with hints := s.hintsAfter cf key version }) := by
  obtain ⟨shard, hints, memTables, splitting, l0Tables⟩ := s
  rcases splitting with _ | tbls
  · exact getValueCont_eq ⟨shard, hints, memTables, none, l0Tables⟩ cf key version
  · have e1 : firstValidIn (SnapAccess.probeSequence
        ⟨shard, hints, memTables, some tbls, l0Tables⟩ cf key version) =
        (if ((tbls.getD (shard.getSplittingIndex key) (NewCFTable 0)).Get cf key version).Valid
         then (tbls.getD (shard.getSplittingIndex key) (NewCFTable 0)).Get cf key version
         else firstValidIn (SnapAccess.mainProbes
           ⟨shard, hints, memTables, some tbls, l0Tables⟩ cf key version)) := rfl
    have e2 : SnapAccess.hintsAfter ⟨shard, hints, memTables, some tbls, l0Tables⟩
        cf key version =
        (if ((tbls.getD (shard.getSplittingIndex key) (NewCFTable 0)).Get cf key version).Valid
         then hints
         else hints.set cf (SnapAccess.memHintAfter
           ⟨shard, hints, memTables, some tbls, l0Tables⟩ cf key version)) := rfl
    have e3 : SnapAccess.getValue ⟨shard, hints, memTables, some tbls, l0Tables⟩
        cf key version =
        (if ((tbls.getD (shard.getSplittingIndex key) (NewCFTable 0)).Get cf key version).Valid
         then ((tbls.getD (shard.getSplittingIndex key) (NewCFTable 0)).Get cf key version,
               (⟨shard, hints, memTables, some tbls, l0Tables⟩ : SnapAccess))
         else SnapAccess.getValueCont ⟨shard, hints, memTables, some tbls, l0Tables⟩
               cf key version (farmFingerprint64 key)) := rfl
    rw [e3, e1, e2]
    by_cases hv : ((tbls.getD (shard.getSplittingIndex key) (NewCFTable 0)).Get
        cf key version).Valid
    · rw [if_pos hv, if_pos hv, if_pos hv]
    · rw [if_neg hv, if_neg hv, if_neg hv]
      exact getValueCont_eq ⟨shard, hints, memTables, some tbls, l0Tables⟩ cf key version

theorem firstValidIn_valid_eq_any (l : List ValueStruct) :
    (firstValidIn l).Valid = l.any (fun p => p.Valid) := by
  induction l with
  | nil => rfl
  | cons v vs ih =>
    by_cases hv : v.Valid
    · simp [firstValidIn, hv]
    · simp [firstValidIn, hv, ih]

/-- Claim C1: `getValue` probes the sources in the fixed order — splitting
memtable selected by `getSplittingIndex` first (when splitting), then the
memtables newest-first, then the L0 tables newest-first keyed by
`farmhash(key)`, then at most one candidate table per level of the CF —
and returns the first valid record; only the index-0 memtable probe uses
(and advances) the per-CF hint. -/
theorem getValue_probe_order (s : SnapAccess) (cf : Nat) (key : List Nat) (version : Nat) :
    (s.getValue cf key version).1 = firstValidIn (s.probeSequence cf key version)
    ∧ (s.getValue cf key version).2 = { s with hints := s.hintsAfter cf key version }
    ∧ (s.probeSequence cf key version).length ≤
        (match s.splitting with | some _ => 1 | none => 0)
          + s.memTables.length + s.l0Tables.length
          + (s.shard.cfs.getD cf ⟨[]⟩).levels.length := by
  refine ⟨by rw [getValue_eq], by rw [getValue_eq], ?_⟩
  have hmain : (s.mainProbes cf key version).length ≤
      s.memTables.length + s.l0Tables.length
        + (s.shard.cfs.getD cf ⟨[]⟩).levels.length := by
    unfold SnapAccess.mainProbes
    simp only [List.length_append, List.length_map]
    have := List.length_filterMap_le (fun lv =>
      (lv.seekCandidate key).map (fun t => t.Get key version (farmFingerprint64 key)))
      (s.shard.cfs.getD cf ⟨[]⟩).levels
    omega
  unfold SnapAccess.probeSequence
  rcases hsp : s.splitting with _ | tbls
  · simpa using hmain
  · simp only [List.length_cons]
    omega

/-- The record `Get` acts on: the first valid record of the probe
sequence at the effective version (0 reads at MAX). -/
def SnapAccess.foundRecord (s : SnapAccess) (cf : Nat) (key : List Nat) (version : Nat) :
    ValueStruct :=
  firstValidIn (s.probeSequence cf key (if version = 0 then maxUint64 else version))

/-- Claim C5: `Get` returns `ErrKeyNotFound` exactly when no source
yields a valid record at the effective version or the first-found (newest)
valid record is a tombstone; otherwise it returns an item carrying that
record's key, version, meta, user-meta and value. -/
theorem get_notFound_iff (s : SnapAccess) (cf : Nat) (key : List Nat) (version : Nat) :
    ((s.Get cf key version).1 = Except.error EngineError.keyNotFound ↔
        (∀ p ∈ s.probeSequence cf key (if version = 0 then maxUint64 else version),
          p.Valid = false)
      ∨ IsDeleted (s.foundRecord cf key version).meta = true)
    ∧ (∀ it : Item, (s.Get cf key version).1 = Except.ok it →
        it = ⟨key, (s.foundRecord cf key version).version,
              (s.foundRecord cf key version).meta,
              (s.foundRecord cf key version).userMeta,
              (s.foundRecord cf key version).value⟩) := by
  have hgv : (s.getValue cf key (if version = 0 then maxUint64 else version)).1 =
      s.foundRecord cf key version := by
    rw [getValue_eq]
    rfl
  have hany : ((s.foundRecord cf key version).Valid = false) ↔
      (∀ p ∈ s.probeSequence cf key (if version = 0 then maxUint64 else version),
        p.Valid = false) := by
    unfold SnapAccess.foundRecord
    rw [firstValidIn_valid_eq_any, List.any_eq_false]
    simp
  unfold SnapAccess.Get
  simp only [hgv]
  by_cases hval : (s.foundRecord cf key version).Valid
  · by_cases hdel : IsDeleted (s.foundRecord cf key version).meta
    · simp only [hval, Bool.not_true, hdel, if_pos, if_true, Bool.false_eq_true, if_false]
      constructor
      · simp [hdel]
      · intro it hit
        cases hit
    · simp only [hval, Bool.not_true, hdel, Bool.false_eq_true, if_false]
      constructor
      · constructor
        · intro h
          cases h
        · rintro (hall | hd)
          · rw [← hany] at hall
            rw [hall] at hval
            cases hval
          · exact hd.elim
      · intro it hit
        cases hit
        rfl
  · have hval' : (s.foundRecord cf key version).Valid = false :=
      Bool.not_eq_true _ ▸ (by simpa using hval)
    simp only [hval', Bool.not_false, if_pos, if_true]
    constructor
    · simp only [true_iff]
      exact Or.inl (hany.1 hval')
    · intro it hit
      cases hit

/-- A snapshot holding one memtable whose lookup always finds a live
record. -/
def snapOne : SnapAccess :=
  { shard := { memTbls := [], cfs := [], splittingIdx := fun _ => 0,
               initialFlushed := true, commitTS := 0 }
    hints := [0]
    memTables := [{ getv := fun _ _ _ => ⟨2, [7], 9, [42]⟩, hintUpd := fun _ _ _ h => h,
                    isEmpty := false, version := 0 }]
    splitting := none
    l0Tables := [] }

theorem get_notFound_iff_witness :
    (⟨[1], 9, 2, [7], [42]⟩ : Item) =
      ⟨[1], (snapOne.foundRecord 0 [1] 10).version, (snapOne.foundRecord 0 [1] 10).meta,
        (snapOne.foundRecord 0 [1] 10).userMeta, (snapOne.foundRecord 0 [1] 10).value⟩ :=
  (get_notFound_iff snapOne 0 [1] 10).2 ⟨[1], 9, 2, [7], [42]⟩ rfl

end Unistore
